import Mathlib

/-!
Verification of `gitdiff2pdf.py` (repository waschi24/gitdiff2pdf).

Shallow embedding conventions:
* Python strings are sequences of Unicode code points; they are modelled as
  `List Char` (indexing/slicing on a Python `str` coincides with list
  indexing on the code points).
* Python floats that only flow through comparisons and sums (text widths,
  page coordinates) are modelled as `ℚ`.
* The external text measurer `fitz.get_text_length` (spec §6) is an
  arbitrary function `List Char → ℚ` passed as a parameter.
* Python `while` loops whose iteration count is bounded by the length of a
  list are modelled with an explicit fuel argument initialised to that
  length; the fuel is shown sufficient in the theorems below.
-/

/-- The set of characters Python's `str.isspace` / no-argument `str.strip`
recognise as whitespace (Unicode whitespace plus the 0x1C–0x1F separators).
The same set models `\s` of a Python 3 `str` regular expression. -/
def pyIsSpace (c : Char) : Bool :=
  c == ' ' || c == '\t' || c == '\n' || c == '\r' || c == '\u000B' || c == '\u000C' ||
  (0x1C ≤ c.toNat && c.toNat ≤ 0x1F) || c == '\u0085' || c == '\u00A0' || c == '\u1680' ||
  (0x2000 ≤ c.toNat && c.toNat ≤ 0x200A) || c == '\u2028' || c == '\u2029' ||
  c == '\u202F' || c == '\u205F' || c == '\u3000'

/-- The characters deleted by `strip_invisibles` (`_INVIS_GLOBAL` in the
source): BOM, zero-widths, NBSP family and the U+2000–U+200A spaces. -/
def isInvisibleChar (c : Char) : Bool :=
  c == '\uFEFF' || c == '\u200B' || c == '\u200C' || c == '\u200D' || c == '\u2060' ||
  c == '\u00A0' || c == '\u202F' || c == '\u205F' ||
  (0x2000 ≤ c.toNat && c.toNat ≤ 0x200A)

/-- `strip_invisibles`: `s.translate(INVISIBLE_TRANS)` deletes every
character of `_INVIS_GLOBAL`. -/
def strip_invisibles (l : List Char) : List Char :=
  l.filter (fun c => !(isInvisibleChar c))

/-- The line boundaries recognised by Python `str.splitlines` other than
`\r` and `\r\n` (those are gone after newline normalisation). -/
def isLineBreakChar (c : Char) : Bool :=
  c == '\n' || c == '\u000B' || c == '\u000C' ||
  c == '\u001C' || c == '\u001D' || c == '\u001E' ||
  c == '\u0085' || c == '\u2028' || c == '\u2029'

/-- `s.replace("\r\n", "\n").replace("\r", "\n")`: both replacements scan
left to right, so each `\r\n` pair collapses to one `\n` and every other
`\r` becomes `\n`; a single left-to-right pass computes the same result. -/
def normalizeNewlines : List Char → List Char
  | [] => []
  | '\r' :: '\n' :: rest => '\n' :: normalizeNewlines rest
  | '\r' :: rest => '\n' :: normalizeNewlines rest
  | c :: rest => c :: normalizeNewlines rest

/-- Helper for `splitlinesKeep`: `acc` holds the current line reversed. -/
def splitlinesKeepAux : List Char → List Char → List (List Char)
  | [], acc => if acc = [] then [] else [acc.reverse]
  | c :: rest, acc =>
    if isLineBreakChar c then (acc.reverse ++ [c]) :: splitlinesKeepAux rest []
    else splitlinesKeepAux rest (c :: acc)

/-- Python `s.splitlines(True)` on a string with no `\r`: split after every
line-boundary character, keeping the boundary character with its line. -/
def splitlinesKeep (l : List Char) : List (List Char) := splitlinesKeepAux l []

/-- `norm_lines`: normalise line breaks, then split keeping the ends. -/
def norm_lines (l : List Char) : List (List Char) :=
  splitlinesKeep (normalizeNewlines l)

/-- Python `line.rstrip("\n")`: drop every trailing `\n`. -/
def rstripNl (l : List Char) : List Char :=
  (l.reverse.dropWhile (fun c => c == '\n')).reverse

/-- Python no-argument `str.rstrip()`: drop trailing whitespace. -/
def pyRstrip (l : List Char) : List Char :=
  (l.reverse.dropWhile pyIsSpace).reverse

/-- Python no-argument `str.strip()`: drop whitespace at both ends. -/
def pyStrip (l : List Char) : List Char :=
  pyRstrip (l.dropWhile pyIsSpace)

/-- `p.toList.isPrefixOf l` models Python `line.startswith(p)`. -/
def startsWith (p : String) (l : List Char) : Bool :=
  p.toList.isPrefixOf l

/-- Helper for `pySplitWs`: `acc` holds the current word reversed. -/
def pySplitWsAux : List Char → List Char → List (List Char)
  | [], acc => if acc = [] then [] else [acc.reverse]
  | c :: rest, acc =>
    if pyIsSpace c then
      (if acc = [] then pySplitWsAux rest [] else acc.reverse :: pySplitWsAux rest [])
    else pySplitWsAux rest (c :: acc)

/-- Python no-argument `str.split()`: split on whitespace runs, no empty
parts. -/
def pySplitWs (l : List Char) : List (List Char) := pySplitWsAux l []

/-- Helper for `expandtabs`: `col` is the current column. -/
def expandtabsAux (tabsize : Int) : Nat → List Char → List Char
  | _, [] => []
  | col, '\t' :: rest =>
    if tabsize ≤ 0 then expandtabsAux tabsize col rest
    else
      let t := tabsize.toNat
      let pad := t - col % t
      List.replicate pad ' ' ++ expandtabsAux tabsize (col + pad) rest
  | _, '\n' :: rest => '\n' :: expandtabsAux tabsize 0 rest
  | _, '\r' :: rest => '\r' :: expandtabsAux tabsize 0 rest
  | col, c :: rest => c :: expandtabsAux tabsize (col + 1) rest

/-- Python `s.expandtabs(tabsize)`: each tab advances the column to the next
multiple of `tabsize` (non-positive `tabsize` deletes tabs); `\n` and `\r`
reset the column. -/
def expandtabs (tabsize : Int) (l : List Char) : List Char :=
  expandtabsAux tabsize 0 l

/-- The path-safe character set of `sanitize_path`. -/
def isPathSafeChar (c : Char) : Bool :=
  c.isAlpha || c.isDigit || c == '.' || c == '_' || c == '-' || c == ' ' ||
  c == '/' || c == '\\'

/-- `sanitize_path`: cut at the first non-path-safe character, then strip
whitespace at both ends. -/
def sanitize_path (l : List Char) : List Char :=
  pyStrip (l.takeWhile isPathSafeChar)

-- -------------------- Diff model --------------------

/-- The `kind` field of `DiffLine` (the source stores the strings
`'ctx' | 'del' | 'add'`, the only three values ever constructed). -/
inductive LineKind where
  | ctx
  | del
  | add
deriving DecidableEq, Repr

/-- `DiffLine`: one classified diff line. -/
structure DiffLine where
  kind : LineKind
  text : List Char
  raw : List Char
  old_num : Option Nat := none
  new_num : Option Nat := none
deriving DecidableEq, Repr

/-- `Hunk`. -/
structure Hunk where
  header : List Char
  old_start : Nat
  old_count : Nat
  new_start : Nat
  new_count : Nat
  lines : List DiffLine := []
  suffix : Option (List Char) := none
deriving DecidableEq, Repr

/-- `DiffFile`. -/
structure DiffFile where
  old_path : List Char := []
  new_path : List Char := []
  hunks : List Hunk := []
deriving DecidableEq, Repr

-- -------------------- Hunk header matching --------------------

/-- The capture groups of a successful `HUNK_RE` match:
`@@\s*-(\d+)(?:,(\d+))?\s+\+(\d+)(?:,(\d+))?\s*@@(?:(.*))?$`. -/
structure HunkMatch where
  oldStart : Nat
  oldCountOpt : Option Nat
  newStart : Nat
  newCountOpt : Option Nat
  suffixRaw : List Char
deriving DecidableEq, Repr

/-- Expect one given character. -/
def expectChar (c : Char) : List Char → Option (List Char)
  | x :: r => if x = c then some r else none
  | [] => none

/-- `int` of an ASCII digit run. -/
def digitsToNat (ds : List Char) : Nat :=
  ds.foldl (fun a c => 10 * a + (c.toNat - 48)) 0

/-- Regex `(\d+)`: a nonempty maximal digit run, as a number.  (`\d` of the
Python pattern also accepts non-ASCII decimal digits; the model restricts to
ASCII digits.) -/
def expectDigits (l : List Char) : Option (Nat × List Char) :=
  match l.takeWhile Char.isDigit with
  | [] => none
  | ds => some (digitsToNat ds, l.dropWhile Char.isDigit)

/-- Regex `\s+`: at least one whitespace character, maximal run. -/
def expectSpaces1 (l : List Char) : Option (List Char) :=
  match l with
  | c :: _ => if pyIsSpace c then some (l.dropWhile pyIsSpace) else none
  | [] => none

/-- Regex `(?:,(\d+))?`: a comma followed by a nonempty digit run, or
nothing consumed.  (If a comma is not followed by a digit the group matches
empty and the following `\s+` then fails on the comma, exactly as the
backtracking regex engine concludes.) -/
def matchCommaGroup (l : List Char) : Option Nat × List Char :=
  match l with
  | ',' :: r =>
    (match r.takeWhile Char.isDigit with
     | [] => (none, l)
     | ds => (some (digitsToNat ds), r.dropWhile Char.isDigit))
  | _ => (none, l)

/-- `HUNK_RE.match(line)`: the anchored match of
`@@\s*-(\d+)(?:,(\d+))?\s+\+(\d+)(?:,(\d+))?\s*@@(?:(.*))?$`.  All
quantifiers act greedily on disjoint character classes, so the backtracking
match is equivalent to this deterministic scan; the optional final group
always captures the remainder of the line (possibly empty). -/
def matchHunk (line : List Char) : Option HunkMatch := do
  let r ← expectChar '@' line
  let r ← expectChar '@' r
  let r := r.dropWhile pyIsSpace
  let r ← expectChar '-' r
  let (o, r) ← expectDigits r
  let (oc, r) := matchCommaGroup r
  let r ← expectSpaces1 r
  let r ← expectChar '+' r
  let (n, r) ← expectDigits r
  let (nc, r) := matchCommaGroup r
  let r := r.dropWhile pyIsSpace
  let r ← expectChar '@' r
  let r ← expectChar '@' r
  pure ⟨o, oc, n, nc, r⟩

/-- Decimal digits of a natural number. -/
def natChars (n : Nat) : List Char := (toString n).toList

/-- The rebuilt hunk header `header_core` of the parser: counts are echoed
exactly when the corresponding comma group was present in the input. -/
def headerCore (o : Nat) (oc : Option Nat) (n : Nat) (nc : Option Nat) : List Char :=
  "@@ -".toList ++ natChars o ++
    (match oc with | some c => ',' :: natChars c | none => []) ++
    " +".toList ++ natChars n ++
    (match nc with | some c => ',' :: natChars c | none => []) ++
    " @@".toList

-- -------------------- Parser --------------------

/-- `parse_path_from_diff_git`. -/
def parse_path_from_diff_git (line : List Char) :
    Option (List Char) × Option (List Char) :=
  match pySplitWs (pyStrip line) with
  | p0 :: p1 :: p2 :: p3 :: _ =>
    if p0 = "diff".toList ∧ p1 = "--git".toList then
      (some (if startsWith "a/" p2 then p2.drop 2 else p2),
       some (if startsWith "b/" p3 then p3.drop 2 else p3))
    else (none, none)
  | _ => (none, none)

/-- `parse_path_line`. -/
def parse_path_line (line : List Char) : Option (List Char) :=
  let rest := pyStrip (line.drop 4)
  if rest = "/dev/null".toList then none
  else
    let rest := if startsWith "a/" rest ∨ startsWith "b/" rest then rest.drop 2 else rest
    let r := strip_invisibles (sanitize_path rest)
    if r = [] then none else some r

/-- The loop state of `parse_unified_diff`: `hunkOpen` models
`current_hunk is not None`; the open hunk is always the last hunk of
`current`. -/
structure ParseState where
  files : List DiffFile := []
  current : Option DiffFile := none
  hunkOpen : Bool := false
  saw : Bool := false
  renameFrom : Option (List Char) := none
  renameTo : Option (List Char) := none
deriving Repr

/-- Replace the last element of a list, if any. -/
def modifyLast (g : Hunk → Hunk) : List Hunk → List Hunk
  | [] => []
  | [h] => [g h]
  | a :: b :: t => a :: modifyLast g (b :: t)

/-- Append a parsed line to the open hunk (the last hunk of `current`). -/
def pushLine (st : ParseState) (dl : DiffLine) : ParseState :=
  { st with current := st.current.map (fun f =>
      { f with hunks := modifyLast (fun h => { h with lines := h.lines ++ [dl] }) f.hunks }) }

/-- `if current: files.append(current)`: the file list with the open file
appended. -/
def assembleFiles (st : ParseState) : List DiffFile :=
  match st.current with | some f => st.files ++ [f] | none => st.files

/-- The processed form of a raw input line:
`line = strip_invisibles(raw.rstrip("\n"))`. -/
def parsedLine (raw : List Char) : List Char :=
  strip_invisibles (rstripNl raw)

/-- The `diff --git ` branch: push the open file, open a fresh one from the
two path tokens, clear the open hunk and the rename candidates. -/
def stepDiffGit (st : ParseState) (line : List Char) : ParseState :=
  let ab := parse_path_from_diff_git line
  { files := assembleFiles st,
    current := some { old_path := ab.1.getD [], new_path := ab.2.getD [], hunks := [] },
    hunkOpen := false, saw := st.saw, renameFrom := none, renameTo := none }

/-- The `--- ` branch: open an anonymous file if none is open, set its old
path when one was parsed. -/
def stepOldPath (st : ParseState) (line : List Char) : ParseState :=
  let cur := st.current.getD {}
  let cur := match parse_path_line line with
             | some p => { cur with old_path := p }
             | none => cur
  { st with current := some cur }

/-- The `+++ ` branch: like `--- ` for the new path, then fall back to the
recorded rename candidates for still-empty paths. -/
def stepNewPath (st : ParseState) (line : List Char) : ParseState :=
  let cur := st.current.getD {}
  let cur := match parse_path_line line with
             | some p => { cur with new_path := p }
             | none => cur
  let cur := match st.renameFrom with
             | some rf => if rf ≠ [] ∧ cur.old_path = [] then { cur with old_path := rf } else cur
             | none => cur
  let cur := match st.renameTo with
             | some rt => if rt ≠ [] ∧ cur.new_path = [] then { cur with new_path := rt } else cur
             | none => cur
  { st with current := some cur }

/-- The hunk-header branch: open a new hunk on the current file (opening an
anonymous file if needed), rebuild `header_core`, default absent counts to
1, store the stripped suffix, mark the hunk open and `saw_any_hunk`. -/
def stepHunk (st : ParseState) (hm : HunkMatch) : ParseState :=
  let cur := st.current.getD {}
  let suffix := pyStrip hm.suffixRaw
  let hunk : Hunk :=
    { header := headerCore hm.oldStart hm.oldCountOpt hm.newStart hm.newCountOpt,
      old_start := hm.oldStart, old_count := hm.oldCountOpt.getD 1,
      new_start := hm.newStart, new_count := hm.newCountOpt.getD 1,
      lines := [], suffix := if suffix = [] then none else some suffix }
  { st with current := some { cur with hunks := cur.hunks ++ [hunk] },
            hunkOpen := true, saw := true }

/-- The classification of a line inside an open hunk: `+` added, `-`
deleted, everything else context with one leading space stripped. -/
def stepBody (tabsize : Int) (st : ParseState) (line : List Char) : ParseState :=
  if startsWith "+" line && !(startsWith "+++ " line) then
    pushLine st { kind := .add, text := strip_invisibles (expandtabs tabsize (line.drop 1)),
                  raw := line }
  else if startsWith "-" line && !(startsWith "--- " line) then
    pushLine st { kind := .del, text := strip_invisibles (expandtabs tabsize (line.drop 1)),
                  raw := line }
  else
    let t := if startsWith " " line then line.drop 1 else line
    pushLine st { kind := .ctx, text := strip_invisibles (expandtabs tabsize t), raw := line }

/-- One iteration of the `for raw in lines` loop of `parse_unified_diff`. -/
def parseStep (tabsize : Int) (st : ParseState) (raw : List Char) : ParseState :=
  let line := parsedLine raw
  if startsWith "index " line || startsWith "new file mode" line ||
     startsWith "deleted file mode" line || startsWith "Binary files " line then st
  else if startsWith "\\ No newline at end of file" line then st
  else if startsWith "diff --git " line then stepDiffGit st line
  else if startsWith "rename from " line then
    { st with renameFrom := some (pyStrip (line.drop 12)) }
  else if startsWith "rename to " line then
    { st with renameTo := some (pyStrip (line.drop 10)) }
  else if startsWith "--- " line then stepOldPath st line
  else if startsWith "+++ " line then stepNewPath st line
  else
    match matchHunk line with
    | some hm => stepHunk st hm
    | none => if !st.hunkOpen then st else stepBody tabsize st line

/-- The post-pass that derives `old_num` / `new_num`: context lines record
and advance both counters, deleted lines the old one, added lines the new
one. -/
def numberLines (o n : Nat) : List DiffLine → List DiffLine
  | [] => []
  | dl :: rest =>
    match dl.kind with
    | .ctx => { dl with old_num := some o, new_num := some n } :: numberLines (o + 1) (n + 1) rest
    | .del => { dl with old_num := some o } :: numberLines (o + 1) n rest
    | .add => { dl with new_num := some n } :: numberLines o (n + 1) rest

/-- The placeholder substitution for a file whose paths are both empty. -/
def fixEmptyPaths (f : DiffFile) : DiffFile :=
  if f.old_path = [] ∧ f.new_path = [] then
    { f with old_path := "(Unnamed OLD)".toList, new_path := "(Unnamed NEW)".toList }
  else f

/-- The line-numbering pass over one file. -/
def renumberFile (f : DiffFile) : DiffFile :=
  { f with hunks := f.hunks.map (fun h =>
      { h with lines := numberLines h.old_start h.new_start h.lines }) }

/-- `parse_unified_diff text tabsize`. -/
def parse_unified_diff (text : List Char) (tabsize : Int) : List DiffFile :=
  let lines := norm_lines text
  let st := lines.foldl (parseStep tabsize) {}
  if !st.saw then []
  else ((assembleFiles st).map fixEmptyPaths).map renumberFile

-- -------------------- Wrapping --------------------

/-- The binary search of `wrap_text`:
`lo, hi = 1, len(rest); cut = 1; while lo <= hi: ...`.  The loop shortens
`hi + 1 - lo` every iteration, so `rest.length` iterations of fuel suffice
(shown in `bsearchGo_fuel` below). -/
def bsearchGo (m : List Char → ℚ) (maxW : ℚ) (rest : List Char) :
    Nat → Nat → Nat → Nat → Nat
  | 0, _, _, cut => cut
  | fuel + 1, lo, hi, cut =>
    if lo ≤ hi then
      let mid := (lo + hi) / 2
      if m (rest.take mid) ≤ maxW then bsearchGo m maxW rest fuel (mid + 1) hi mid
      else bsearchGo m maxW rest fuel lo (mid - 1) cut
    else cut

/-- The `cut` computed by one iteration of the outer `while rest:` loop. -/
def bsearchCut (m : List Char → ℚ) (maxW : ℚ) (rest : List Char) : Nat :=
  bsearchGo m maxW rest rest.length 1 rest.length 1

/-- Helper for `lastWsIdx`. -/
def lastWsIdxAux : Nat → Option Nat → List Char → Option Nat
  | _, best, [] => best
  | i, best, c :: rest =>
    lastWsIdxAux (i + 1) (if c = ' ' ∨ c = '\t' then some i else best) rest

/-- `max(slice_.rfind(" "), slice_.rfind("\t"))`: the index of the last
space or tab, `none` when there is none (Python returns `-1`). -/
def lastWsIdx (l : List Char) : Option Nat := lastWsIdxAux 0 none l

/-- The body of the `while rest:` loop of `wrap_text`: the emitted row and
the remaining string.  `ws >= int(0.6 * cut)` is modelled by
`3 * cut / 5 ≤ ws`; for every `cut` the double-precision product `0.6 * cut`
rounds to a value whose truncation equals `⌊3 * cut / 5⌋`, because the error
`cut * 2.2e-17` never crosses an integer boundary. -/
def wrapStep (m : List Char → ℚ) (maxW : ℚ) (rest : List Char) :
    List Char × List Char :=
  let cut := bsearchCut m maxW rest
  let slice := rest.take cut
  match lastWsIdx slice with
  | some ws =>
    if 3 * cut / 5 ≤ ws then (pyRstrip (slice.take ws), rest.drop (ws + 1))
    else (slice, rest.drop cut)
  | none => (slice, rest.drop cut)

/-- The `while rest:` loop of `wrap_text`, with fuel: each iteration removes
at least one character from `rest` (theorem `wrap_terminates` below), so the
fuel `rest.length` supplied by `wrap_text` never runs out. -/
def wrapGo (m : List Char → ℚ) (maxW : ℚ) : Nat → List Char → List (List Char)
  | _, [] => []
  | 0, _ => []
  | fuel + 1, rest =>
    if m rest ≤ maxW then [rest]
    else (wrapStep m maxW rest).1 :: wrapGo m maxW fuel (wrapStep m maxW rest).2

/-- `wrap_text(s, max_w, fontname, fontsize)`; the measurement function `m`
stands for `text_width(·, fontname, fontsize)`. -/
def wrap_text (m : List Char → ℚ) (maxW : ℚ) (s : List Char) : List (List Char) :=
  if s = [] then [[]]
  else if m s ≤ maxW then [s]
  else wrapGo m maxW s.length s

-- -------------------- Side-by-side pairing --------------------

/-- The pairing loop of `render_file_sbs` (also repeated verbatim in
`render_word`): a single forward scan over a hunk's lines producing
`(left, right)` column pairs. -/
def sbsPairs : List DiffLine → List (Option DiffLine × Option DiffLine)
  | [] => []
  | ln :: rest =>
    if ln.kind = .del then
      (match rest with
       | nxt :: rest2 =>
         if nxt.kind = .add then (some ln, some nxt) :: sbsPairs rest2
         else (some ln, none) :: sbsPairs (nxt :: rest2)
       | [] => (some ln, none) :: sbsPairs [])
    else if ln.kind = .add then (none, some ln) :: sbsPairs rest
    else (some ln, some ln) :: sbsPairs rest

-- -------------------- Pagination (cursor model) --------------------

/-- The `Layout` dataclass (floats as rationals). -/
structure Layout where
  margin : ℚ := 44
  font_size : ℚ := 19 / 2
  line_gap : ℚ := 11 / 5
  hunk_gap_y : ℚ := 8
  section_gap_y : ℚ := 10
  col_gap : ℚ := 16
  gutter_gap : ℚ := 6
  gutter_chars : Nat := 5
  gap_badge_to_hunk : ℚ := 2
  gap_hunk_to_code : ℚ := 4
  block_gap_y : ℚ := 6
  min_rows_on_page : Nat := 3
deriving DecidableEq, Repr

/-- The renderer configuration that the cursor arithmetic depends on: the
text measurer `m` (for the monospace font at `layout.font_size`), the layout
and the page orientation. -/
structure RCfg where
  m : List Char → ℚ
  layout : Layout := {}
  landscape : Bool := false

/-- The mutable cursor of `Renderer`: how many pages were created
(`pages = 0` models `page is None`) and the current baseline `y_base`. -/
structure RState where
  pages : Nat := 0
  yBase : ℚ := 0
deriving DecidableEq, Repr

/-- `fitz.paper_rect("a4")` is 595 x 842 points; landscape swaps them. -/
def pageWidth (landscape : Bool) : ℚ := if landscape then 842 else 595

def pageHeight (landscape : Bool) : ℚ := if landscape then 595 else 842

/-- `Renderer.box`, left x. -/
def boxX0 (cfg : RCfg) : ℚ := cfg.layout.margin

/-- `Renderer.box`, top y. -/
def boxY0 (cfg : RCfg) : ℚ := cfg.layout.margin

/-- `Renderer.box`, right x. -/
def boxX1 (cfg : RCfg) : ℚ := pageWidth cfg.landscape - cfg.layout.margin

/-- `Renderer.box`, bottom y. -/
def boxY1 (cfg : RCfg) : ℚ := pageHeight cfg.landscape - cfg.layout.margin

/-- `line_h = fs + line_gap`. -/
def lineH (cfg : RCfg) : ℚ := cfg.layout.font_size + cfg.layout.line_gap

/-- `Renderer.page_capacity`. -/
def page_capacity (cfg : RCfg) : ℚ := boxY1 cfg - (boxY0 cfg + 28)

/-- The baseline of a fresh page: `y0 + 28 + fs`. -/
def freshYBase (cfg : RCfg) : ℚ := boxY0 cfg + 28 + cfg.layout.font_size

/-- `Renderer.new_page` followed by header redraw and baseline reset. -/
def newPage (cfg : RCfg) (st : RState) : RState :=
  { pages := st.pages + 1, yBase := freshYBase cfg }

/-- `Renderer.start_if_needed`. -/
def start_if_needed (cfg : RCfg) (st : RState) : RState :=
  if st.pages = 0 then newPage cfg st else st

/-- `Renderer.space_left`. -/
def space_left (cfg : RCfg) (st : RState) : ℚ :=
  boxY1 cfg - (st.yBase - cfg.layout.font_size)

/-- `Renderer.ensure_y`. -/
def ensure_y (cfg : RCfg) (rowsH : ℚ) (st : RState) : RState :=
  if rowsH ≤ space_left cfg st then st else newPage cfg st

/-- `Renderer.widow_check_before_hunk`. -/
def widow_check_before_hunk (cfg : RCfg) (lineHv : ℚ) (st : RState) : RState :=
  let needed := lineHv + cfg.layout.gap_hunk_to_code +
    (cfg.layout.min_rows_on_page : ℚ) * lineHv
  if space_left cfg st < needed then ensure_y cfg 10000 st else st

/-- The cursor effect of `Renderer.draw_file_badge`. -/
def draw_file_badge (cfg : RCfg) (st : RState) : RState :=
  let top := st.yBase - cfg.layout.font_size
  let bottom := top + lineH cfg
  { st with yBase := bottom + cfg.layout.gap_badge_to_hunk + cfg.layout.font_size }

/-- The cursor effect of `Renderer.draw_hunk_header`. -/
def draw_hunk_header (cfg : RCfg) (st : RState) : RState :=
  let top := st.yBase - cfg.layout.font_size
  let bottom := top + lineH cfg
  { st with yBase := bottom + cfg.layout.gap_hunk_to_code + cfg.layout.font_size }

/-- `col_w` of `render_file_sbs`. -/
def sbsColW (cfg : RCfg) : ℚ := (boxX1 cfg - boxX0 cfg - cfg.layout.col_gap) / 2

/-- `sample = f"{'9' * gutter_chars} "`. -/
def gutterSample (cfg : RCfg) : List Char :=
  List.replicate cfg.layout.gutter_chars '9' ++ [' ']

/-- `gutter_w`. -/
def gutterW (cfg : RCfg) : ℚ := cfg.m (gutterSample cfg)

/-- `left_x1 = x0 + col_w`. -/
def sbsLeftX1 (cfg : RCfg) : ℚ := boxX0 cfg + sbsColW cfg

/-- `left_text_x`. -/
def sbsLeftTextX (cfg : RCfg) : ℚ := boxX0 cfg + gutterW cfg + cfg.layout.gutter_gap

/-- `right_x0 = left_x1 + gap`. -/
def sbsRightX0 (cfg : RCfg) : ℚ := sbsLeftX1 cfg + cfg.layout.col_gap

/-- `right_text_x`. -/
def sbsRightTextX (cfg : RCfg) : ℚ := sbsRightX0 cfg + gutterW cfg + cfg.layout.gutter_gap

/-- `l_max = max(12.0, left_x1 - left_text_x)`. -/
def sbsLMax (cfg : RCfg) : ℚ := max 12 (sbsLeftX1 cfg - sbsLeftTextX cfg)

/-- `r_max = max(12.0, right_x1 - right_text_x)` with `right_x1 = x1`. -/
def sbsRMax (cfg : RCfg) : ℚ := max 12 (boxX1 cfg - sbsRightTextX cfg)

/-- The cursor effect of emitting one side-by-side row pair: wrap both
sides, reserve `rows * line_h`, advance the baseline by it. -/
def renderSbsPair (cfg : RCfg) (p : Option DiffLine × Option DiffLine)
    (st : RState) : RState :=
  let lParts := match p.1 with
                | some l => wrap_text cfg.m (sbsLMax cfg) l.text
                | none => [[]]
  let rParts := match p.2 with
                | some r => wrap_text cfg.m (sbsRMax cfg) r.text
                | none => [[]]
  let rows := max lParts.length rParts.length
  let st := ensure_y cfg ((rows : ℚ) * lineH cfg) st
  { st with yBase := st.yBase + (rows : ℚ) * lineH cfg }

/-- What `render_file_sbs` runs before a hunk's own content: the
widow/orphan check and `ensure_y(line_h)`.  A page break here falls before
the hunk block starts. -/
def renderHunkSbsPre (cfg : RCfg) (st : RState) : RState :=
  ensure_y cfg (lineH cfg) (widow_check_before_hunk cfg (lineH cfg) st)

/-- The emission of a hunk's own content in `render_file_sbs`: hunk header,
every row pair, trailing block gap.  A page break here falls strictly
inside the hunk block. -/
def renderHunkSbsBody (cfg : RCfg) (h : Hunk) (st : RState) : RState :=
  let st := draw_hunk_header cfg st
  let st := (sbsPairs h.lines).foldl (fun s p => renderSbsPair cfg p s) st
  { st with yBase := st.yBase + cfg.layout.block_gap_y }

/-- The cursor semantics of `Renderer.render_file_sbs`. -/
def render_file_sbs (cfg : RCfg) (f : DiffFile) (st : RState) : RState :=
  let st := start_if_needed cfg st
  let st := ensure_y cfg (lineH cfg) st
  let st := draw_file_badge cfg st
  let st := f.hunks.foldl (fun s h => renderHunkSbsBody cfg h (renderHunkSbsPre cfg s)) st
  { st with yBase := st.yBase + cfg.layout.block_gap_y }

-- -------------------- Shared concrete instances --------------------

/-- A concrete text measurer: the number of code points, as a rational.  It
instantiates the abstract measurer in concrete evaluations. -/
def lenMeasure (l : List Char) : ℚ := l.length

/-- A fallback hunk used only as the default of `List.headD`/`getLastD` in
concrete statements. -/
def emptyHunk : Hunk :=
  { header := [], old_start := 0, old_count := 0, new_start := 0, new_count := 0 }

-- -------------------- Claim C1 --------------------

/-- Claim C1: parsing `"@@ -1,2 +1,3 @@\n context\n-old\n+new\n+new2\n"`
with the default tab width 4 yields exactly one file with exactly one hunk,
`old_start = 1`, `old_count = 2`, `new_start = 1`, `new_count = 3`, and the
line sequence context(old 1, new 1), deleted(old 2), added(new 2),
added(new 3). -/
theorem c1_example_parse :
    parse_unified_diff "@@ -1,2 +1,3 @@\n context\n-old\n+new\n+new2\n".toList 4 =
      [{ old_path := "(Unnamed OLD)".toList, new_path := "(Unnamed NEW)".toList,
         hunks := [{ header := "@@ -1,2 +1,3 @@".toList,
                     old_start := 1, old_count := 2, new_start := 1, new_count := 3,
                     lines := [
                       { kind := .ctx, text := "context".toList, raw := " context".toList,
                         old_num := some 1, new_num := some 1 },
                       { kind := .del, text := "old".toList, raw := "-old".toList,
                         old_num := some 2, new_num := none },
                       { kind := .add, text := "new".toList, raw := "+new".toList,
                         old_num := none, new_num := some 2 },
                       { kind := .add, text := "new2".toList, raw := "+new2".toList,
                         old_num := none, new_num := some 3 }],
                     suffix := none }] }] := by decide

-- -------------------- Claim C8 --------------------

/-- Claim C8: the side-by-side pairing rules of the single forward scan: a
deleted line immediately followed by an added line gives one pair consuming
both; a deleted line not followed by an added line pairs with an absent
right side; an added line not consumed by a preceding pairable deletion
pairs with an absent left side; a context line pairs with itself; and
`[deleted A, added B, context C]` yields exactly `[(A, B), (C, C)]`. -/
theorem sbs_pairing_rules :
    (∀ (d a : DiffLine) (rest : List DiffLine), d.kind = .del → a.kind = .add →
        sbsPairs (d :: a :: rest) = (some d, some a) :: sbsPairs rest) ∧
    (∀ (d : DiffLine) (rest : List DiffLine), d.kind = .del →
        (∀ nxt ∈ rest.head?, nxt.kind ≠ .add) →
        sbsPairs (d :: rest) = (some d, none) :: sbsPairs rest) ∧
    (∀ (a : DiffLine) (rest : List DiffLine), a.kind = .add →
        sbsPairs (a :: rest) = (none, some a) :: sbsPairs rest) ∧
    (∀ (c : DiffLine) (rest : List DiffLine), c.kind = .ctx →
        sbsPairs (c :: rest) = (some c, some c) :: sbsPairs rest) ∧
    (∀ (A B C : DiffLine), A.kind = .del → B.kind = .add → C.kind = .ctx →
        sbsPairs [A, B, C] = [(some A, some B), (some C, some C)]) := by
  refine ⟨?_, ?_, ?_, ?_, ?_⟩
  · intro d a rest hd ha
    simp [sbsPairs, hd, ha]
  · intro d rest hd hnx
    cases rest with
    | nil => simp [sbsPairs, hd]
    | cons nxt rest2 =>
      have h2 : nxt.kind ≠ LineKind.add := hnx nxt (by simp)
      simp [sbsPairs, hd, h2]
  · intro a rest ha
    cases rest <;> simp [sbsPairs, ha]
  · intro c rest hc
    cases rest <;> simp [sbsPairs, hc]
  · intro A B C hA hB hC
    simp [sbsPairs, hA, hB, hC]

/-- Claim C8, witness: the pairing rules applied at the concrete lines of
Example 4. -/
theorem sbs_pairing_rules_witness :
    sbsPairs [{ kind := .del, text := ['A'], raw := ['A'] },
              { kind := .add, text := ['B'], raw := ['B'] },
              { kind := .ctx, text := ['C'], raw := ['C'] }] =
      [(some { kind := .del, text := ['A'], raw := ['A'] },
        some { kind := .add, text := ['B'], raw := ['B'] }),
       (some { kind := .ctx, text := ['C'], raw := ['C'] },
        some { kind := .ctx, text := ['C'], raw := ['C'] })] :=
  sbs_pairing_rules.2.2.2.2 _ _ _ rfl rfl rfl

-- -------------------- Claim C6 --------------------

/-- A measurement function refuting the universally quantified width bound:
it is not monotone under extension. -/
def cexMeasure (l : List Char) : ℚ :=
  if l = ['a', ' ', 'b'] then 100 else 3 * (l.length : ℚ)

/-- Claim C6, counterexample: with the (non-monotone) measurer `cexMeasure`
and maximum width 13, wrapping `"a b xyz"` produces the row `"a b"`, whose
measured width 100 exceeds 13, which is three characters long, contains a
space (so it is not a single unbreakable token), and which does not come
from the hard-break fallback (the one-character prefix fits: its width is
3 ≤ 13). -/
theorem wrap_width_bound_cex :
    ['a', ' ', 'b'] ∈ wrap_text cexMeasure 13 "a b xyz".toList ∧
    ¬ (cexMeasure ['a', ' ', 'b'] ≤ 13) ∧
    (['a', ' ', 'b'] : List Char).length ≠ 1 ∧
    (' ' ∈ (['a', ' ', 'b'] : List Char)) ∧
    cexMeasure ("a b xyz".toList.take 1) ≤ 13 := by with_unfolding_all decide

-- -------------------- Claim C7 --------------------

/-- The renderer configuration of the keep-together counterexample run:
side-by-side view, portrait A4, `--font-size 100`, character-count
measurer. -/
def c7cfg : RCfg := { m := lenMeasure, layout := { font_size := 100 } }

/-- The diff input of the keep-together counterexample run: one file, a
first hunk with no lines and a second hunk with four context lines. -/
def c7input : List Char :=
  "diff --git a/f b/f\n@@ -1 +1 @@\n@@ -1,4 +1,4 @@\n a\n b\n c\n d\n".toList

/-- The parsed file of the counterexample run. -/
def c7file : DiffFile := (parse_unified_diff c7input 4).headD {}

/-- Its first hunk. -/
def c7hunk1 : Hunk := c7file.hunks.headD emptyHunk

/-- Its second hunk. -/
def c7hunk2 : Hunk := c7file.hunks.getLastD emptyHunk

/-- The cursor state of the run just before the second hunk's own content
(header and rows) is emitted: page 1, after badge, first hunk, and the
second hunk's widow check and `ensure_y(line_h)`. -/
def c7mid : RState :=
  renderHunkSbsPre c7cfg (renderHunkSbsBody c7cfg c7hunk1 (renderHunkSbsPre c7cfg
    (draw_file_badge c7cfg (ensure_y c7cfg (lineH c7cfg) (start_if_needed c7cfg {})))))

set_option maxRecDepth 8000 in
/-- Claim C7: the code violates the keep-together guarantee in the
side-by-side arrangement.  For the input `c7input` rendered with `c7cfg`:
the second hunk fits the capacity of one fresh page (emitting its content
from a fresh page performs no page break), yet the actual
`render_file_sbs` run — whose final state decomposes exactly into the
pre-phase `c7mid` followed by the hunk's content emission — creates a new
page strictly inside that hunk's content (after its header is drawn on
page 1), because `render_file_sbs` performs no keep-together measurement
at all. -/
theorem sbs_keep_together_violated :
    (parse_unified_diff c7input 4).length = 1 ∧
    c7file.hunks = [c7hunk1, c7hunk2] ∧
    (renderHunkSbsBody c7cfg c7hunk2 { pages := 1, yBase := freshYBase c7cfg }).pages = 1 ∧
    render_file_sbs c7cfg c7file {} =
      { renderHunkSbsBody c7cfg c7hunk2 c7mid with
          yBase := (renderHunkSbsBody c7cfg c7hunk2 c7mid).yBase + c7cfg.layout.block_gap_y } ∧
    c7mid.pages = 1 ∧
    (renderHunkSbsBody c7cfg c7hunk2 c7mid).pages = 2 := by with_unfolding_all decide

-- -------------------- Claim C5 --------------------

/-- Claim C5: for every string, maximum width and measurement function, an
empty string or one whose measured width already fits is returned as the
single row equal to it. -/
theorem wrap_fitting_identity (m : List Char → ℚ) (maxW : ℚ) (s : List Char)
    (h : s = [] ∨ m s ≤ maxW) : wrap_text m maxW s = [s] := by
  rcases h with h | h
  · subst h
    simp [wrap_text]
  · by_cases hs : s = []
    · subst hs
      simp [wrap_text]
    · simp [wrap_text, hs, h]

/-- Claim C5, witness: wrapping the already-fitting `"ab"` at width 10 with
the character-count measurer. -/
theorem wrap_fitting_identity_witness :
    wrap_text lenMeasure 10 ['a', 'b'] = [['a', 'b']] :=
  wrap_fitting_identity lenMeasure 10 ['a', 'b']
    (Or.inr (by with_unfolding_all decide))

-- -------------------- Binary-search lemmas --------------------

/-- The binary search never returns a cut below 1. -/
lemma bsearchGo_pos (m : List Char → ℚ) (maxW : ℚ) (rest : List Char) :
    ∀ fuel lo hi cut, 1 ≤ lo → 1 ≤ cut → 1 ≤ bsearchGo m maxW rest fuel lo hi cut := by
  intro fuel
  induction fuel with
  | zero =>
    intro lo hi cut _ hc
    simpa [bsearchGo] using hc
  | succ f ih =>
    intro lo hi cut hlo hc
    by_cases hlh : lo ≤ hi
    · by_cases hm : m (rest.take ((lo + hi) / 2)) ≤ maxW
      · simpa [bsearchGo, hlh, hm] using
          ih ((lo + hi) / 2 + 1) hi ((lo + hi) / 2) (by omega) (by omega)
      · simpa [bsearchGo, hlh, hm] using ih lo ((lo + hi) / 2 - 1) cut hlo hc
    · simpa [bsearchGo, hlh] using hc

/-- With sufficient fuel, the binary search returns either a cut whose
prefix fits, or the initial cut 1 after even the one-character prefix
failed. -/
lemma bsearchGo_spec (m : List Char → ℚ) (maxW : ℚ) (rest : List Char) :
    ∀ fuel lo hi cut, hi + 1 - lo ≤ fuel → 1 ≤ lo →
      (m (rest.take cut) ≤ maxW ∨
        (cut = 1 ∧ lo = 1 ∧ (lo ≤ hi ∨ ¬ m (rest.take 1) ≤ maxW))) →
      (m (rest.take (bsearchGo m maxW rest fuel lo hi cut)) ≤ maxW ∨
        (bsearchGo m maxW rest fuel lo hi cut = 1 ∧ ¬ m (rest.take 1) ≤ maxW)) := by
  intro fuel
  induction fuel with
  | zero =>
    intro lo hi cut hfuel hlo hinv
    rcases hinv with h | ⟨hc, hl1, h2⟩
    · simpa [bsearchGo] using Or.inl h
    · rcases h2 with h2 | h2
      · exact absurd h2 (by omega)
      · subst hc
        simp only [bsearchGo]
        exact Or.inr ⟨trivial, h2⟩
  | succ f ih =>
    intro lo hi cut hfuel hlo hinv
    by_cases hlh : lo ≤ hi
    · by_cases hm : m (rest.take ((lo + hi) / 2)) ≤ maxW
      · simpa [bsearchGo, hlh, hm] using
          ih ((lo + hi) / 2 + 1) hi ((lo + hi) / 2) (by omega) (by omega) (Or.inl hm)
      · have hinv2 : m (rest.take cut) ≤ maxW ∨
            (cut = 1 ∧ lo = 1 ∧ (lo ≤ (lo + hi) / 2 - 1 ∨ ¬ m (rest.take 1) ≤ maxW)) := by
          rcases hinv with h | ⟨hc, hl1, _⟩
          · exact Or.inl h
          · refine Or.inr ⟨hc, hl1, ?_⟩
            by_cases hm1 : (lo + hi) / 2 = 1
            · right
              rw [hm1] at hm
              exact hm
            · left
              omega
        simpa [bsearchGo, hlh, hm] using ih lo ((lo + hi) / 2 - 1) cut (by omega) hlo hinv2
    · rcases hinv with h | ⟨hc, hl1, h2⟩
      · simpa [bsearchGo, hlh] using Or.inl h
      · rcases h2 with h2 | h2
        · exact absurd h2 hlh
        · subst hc
          simp only [bsearchGo, if_neg hlh]
          exact Or.inr ⟨trivial, h2⟩

/-- `cut >= 1` always. -/
lemma bsearchCut_pos (m : List Char → ℚ) (maxW : ℚ) (rest : List Char) :
    1 ≤ bsearchCut m maxW rest :=
  bsearchGo_pos m maxW rest rest.length 1 rest.length 1 le_rfl le_rfl

/-- On a nonempty remainder, the cut's prefix fits, or the cut is 1 and
even the one-character prefix exceeds the width. -/
lemma bsearchCut_spec (m : List Char → ℚ) (maxW : ℚ) (rest : List Char)
    (hrest : rest ≠ []) :
    m (rest.take (bsearchCut m maxW rest)) ≤ maxW ∨
      (bsearchCut m maxW rest = 1 ∧ ¬ m (rest.take 1) ≤ maxW) := by
  have hlen : 0 < rest.length := List.length_pos.mpr hrest
  exact bsearchGo_spec m maxW rest rest.length 1 rest.length 1 (by omega) le_rfl
    (Or.inr ⟨rfl, rfl, Or.inl (by omega)⟩)

-- -------------------- Wrap-step lemmas --------------------

/-- `wrapStep` written without the intermediate bindings. -/
lemma wrapStep_eq (m : List Char → ℚ) (maxW : ℚ) (rest : List Char) :
    wrapStep m maxW rest =
      match lastWsIdx (rest.take (bsearchCut m maxW rest)) with
      | some ws =>
        if 3 * bsearchCut m maxW rest / 5 ≤ ws then
          (pyRstrip ((rest.take (bsearchCut m maxW rest)).take ws), rest.drop (ws + 1))
        else (rest.take (bsearchCut m maxW rest), rest.drop (bsearchCut m maxW rest))
      | none => (rest.take (bsearchCut m maxW rest), rest.drop (bsearchCut m maxW rest)) :=
  rfl

/-- Every loop iteration of `wrap_text` removes at least one character. -/
lemma wrapStep_shrink (m : List Char → ℚ) (maxW : ℚ) (rest : List Char)
    (hrest : rest ≠ []) : (wrapStep m maxW rest).2.length < rest.length := by
  have hpos := bsearchCut_pos m maxW rest
  have hlen : 0 < rest.length := List.length_pos.mpr hrest
  rw [wrapStep_eq]
  cases hws : lastWsIdx (rest.take (bsearchCut m maxW rest)) with
  | none =>
    simp only [List.length_drop]
    omega
  | some ws =>
    by_cases hth : 3 * bsearchCut m maxW rest / 5 ≤ ws
    · simp only [if_pos hth, List.length_drop]
      omega
    · simp only [if_neg hth, List.length_drop]
      omega

-- -------------------- Claim C9 --------------------

/-- Enough fuel makes `wrapGo` insensitive to the exact fuel value. -/
lemma wrapGo_fuel_irrel (m : List Char → ℚ) (maxW : ℚ) :
    ∀ f1 f2 (rest : List Char), rest.length ≤ f1 → rest.length ≤ f2 →
      wrapGo m maxW f1 rest = wrapGo m maxW f2 rest := by
  intro f1
  induction f1 with
  | zero =>
    intro f2 rest h1 _
    have hnil : rest = [] := by
      cases rest with
      | nil => rfl
      | cons a t => simp at h1
    subst hnil
    cases f2 <;> simp [wrapGo]
  | succ f ih =>
    intro f2 rest h1 h2
    cases rest with
    | nil => cases f2 <;> simp [wrapGo]
    | cons a t =>
      cases f2 with
      | zero => simp at h2
      | succ g =>
        by_cases hm : m (a :: t) ≤ maxW
        · simp [wrapGo, hm]
        · have hs := wrapStep_shrink m maxW (a :: t) (by simp)
          simp only [wrapGo, if_neg hm]
          congr 1
          have hlen := List.length_cons a t
          exact ih g (wrapStep m maxW (a :: t)).2 (by omega) (by omega)

/-- Claim C9: the wrapping loop terminates for every input and every
measurement function: the binary-search cut is at least 1, each iteration
of the loop strictly shrinks the remaining string, and therefore the fuel
`rest.length` that `wrap_text` supplies to the loop is sufficient (more
fuel computes the same rows). -/
theorem wrap_terminates (m : List Char → ℚ) (maxW : ℚ) (rest : List Char)
    (hrest : rest ≠ []) :
    1 ≤ bsearchCut m maxW rest ∧
    (wrapStep m maxW rest).2.length < rest.length ∧
    ∀ fuel, rest.length ≤ fuel →
      wrapGo m maxW fuel rest = wrapGo m maxW rest.length rest :=
  ⟨bsearchCut_pos m maxW rest, wrapStep_shrink m maxW rest hrest,
   fun fuel hf => wrapGo_fuel_irrel m maxW fuel rest.length rest hf le_rfl⟩

/-- Claim C9, witness: the termination bounds at the concrete remainder
`"xy"` with the character-count measurer and maximum width 1. -/
theorem wrap_terminates_witness :
    1 ≤ bsearchCut lenMeasure 1 ['x', 'y'] ∧
    (wrapStep lenMeasure 1 ['x', 'y']).2.length < (['x', 'y'] : List Char).length ∧
    ∀ fuel, (['x', 'y'] : List Char).length ≤ fuel →
      wrapGo lenMeasure 1 fuel ['x', 'y'] =
        wrapGo lenMeasure 1 (['x', 'y'] : List Char).length ['x', 'y'] :=
  wrap_terminates lenMeasure 1 ['x', 'y'] (by decide)

-- -------------------- Claim C6 (amended) --------------------

/-- If the scan returns no index, the list holds no space and no tab. -/
lemma lastWsIdxAux_none :
    ∀ (l : List Char) (i : Nat) (best : Option Nat),
      lastWsIdxAux i best l = none →
        best = none ∧ ∀ c ∈ l, ¬ (c = ' ' ∨ c = '\t') := by
  intro l
  induction l with
  | nil =>
    intro i best h
    simp only [lastWsIdxAux] at h
    exact ⟨h, by simp⟩
  | cons c t ih =>
    intro i best h
    simp only [lastWsIdxAux] at h
    obtain ⟨hb, hrest⟩ := ih (i + 1) _ h
    by_cases hc : c = ' ' ∨ c = '\t'
    · rw [if_pos hc] at hb
      cases hb
    · rw [if_neg hc] at hb
      refine ⟨hb, ?_⟩
      intro x hx
      rcases List.mem_cons.mp hx with hx | hx
      · subst hx
        exact hc
      · exact hrest x hx

/-- A returned index is either the incoming candidate or lies in the range
of the scanned part. -/
lemma lastWsIdxAux_some :
    ∀ (l : List Char) (i : Nat) (best : Option Nat) (ws : Nat),
      lastWsIdxAux i best l = some ws →
        best = some ws ∨ (i ≤ ws ∧ ws < i + l.length) := by
  intro l
  induction l with
  | nil =>
    intro i best ws h
    simp only [lastWsIdxAux] at h
    exact Or.inl h
  | cons c t ih =>
    intro i best ws h
    simp only [lastWsIdxAux] at h
    rcases ih (i + 1) _ ws h with hb | hr
    · by_cases hc : c = ' ' ∨ c = '\t'
      · rw [if_pos hc] at hb
        right
        have : ws = i := by
          cases hb
          rfl
        subst this
        simp
      · rw [if_neg hc] at hb
        exact Or.inl hb
    · right
      simp only [List.length_cons]
      omega

/-- The index of the last space or tab is inside the list. -/
lemma lastWsIdx_lt (l : List Char) (ws : Nat) (h : lastWsIdx l = some ws) :
    ws < l.length := by
  rcases lastWsIdxAux_some l 0 none ws h with h' | h'
  · cases h'
  · omega

/-- Stripping trailing whitespace shortens the list from the right only. -/
lemma pyRstrip_append (l : List Char) : ∃ t, l = pyRstrip l ++ t := by
  refine ⟨(l.reverse.takeWhile pyIsSpace).reverse, ?_⟩
  conv_lhs => rw [← List.reverse_reverse l,
    ← List.takeWhile_append_dropWhile (p := pyIsSpace) (l := l.reverse)]
  rw [List.reverse_append]
  rfl

/-- Under extension-monotonicity, the emitted row of one loop iteration
fits, or it is the one-character hard-break row: a single character that is
neither a space nor a tab and alone exceeds the width. -/
lemma wrapStep_row (m : List Char → ℚ) (maxW : ℚ) (rest : List Char)
    (hrest : rest ≠ []) (hmono : ∀ l t : List Char, m l ≤ m (l ++ t))
    (hempty : m [] ≤ maxW) :
    m (wrapStep m maxW rest).1 ≤ maxW ∨
      ((wrapStep m maxW rest).1.length = 1 ∧ ¬ m (wrapStep m maxW rest).1 ≤ maxW ∧
        ∀ c ∈ (wrapStep m maxW rest).1, ¬ (c = ' ' ∨ c = '\t')) := by
  have hspec := bsearchCut_spec m maxW rest hrest
  have hmono_take : ∀ (k : Nat) (l : List Char), m (l.take k) ≤ m l := by
    intro k l
    conv_rhs => rw [← List.take_append_drop k l]
    exact hmono _ _
  have hrstrip : ∀ l : List Char, m (pyRstrip l) ≤ m l := by
    intro l
    obtain ⟨t, ht⟩ := pyRstrip_append l
    conv_rhs => rw [ht]
    exact hmono _ _
  have hlenpos : 0 < rest.length := List.length_pos.mpr hrest
  rw [wrapStep_eq]
  cases hws : lastWsIdx (rest.take (bsearchCut m maxW rest)) with
  | none =>
    rcases hspec with h | ⟨h1, h2⟩
    · exact Or.inl h
    · right
      rw [h1]
      refine ⟨?_, ?_, ?_⟩
      · simp only [List.length_take]
        omega
      · exact h2
      · intro c hc
        have := (lastWsIdxAux_none _ 0 none hws).2
        rw [h1] at this
        exact this c hc
  | some ws =>
    dsimp only
    by_cases hth : 3 * bsearchCut m maxW rest / 5 ≤ ws
    · rw [if_pos hth]
      left
      rcases hspec with h | ⟨h1, h2⟩
      · calc m (pyRstrip ((rest.take (bsearchCut m maxW rest)).take ws)) ≤
            m ((rest.take (bsearchCut m maxW rest)).take ws) := hrstrip _
          _ ≤ m (rest.take (bsearchCut m maxW rest)) := hmono_take _ _
          _ ≤ maxW := h
      · have hwslt := lastWsIdx_lt _ ws hws
        rw [h1] at hwslt
        have hws0 : ws = 0 := by
          simp only [List.length_take] at hwslt
          omega
        rw [hws0]
        simpa [pyRstrip] using hempty
    · rw [if_neg hth]
      rcases hspec with h | ⟨h1, h2⟩
      · exact Or.inl h
      · exfalso
        apply hth
        rw [h1]
        simp

/-- Every row the wrapping loop emits fits or is a one-character
unbreakable overflow, given extension-monotonicity of the measurer. -/
lemma wrapGo_rows (m : List Char → ℚ) (maxW : ℚ)
    (hmono : ∀ l t : List Char, m l ≤ m (l ++ t)) (hempty : m [] ≤ maxW) :
    ∀ fuel (rest : List Char), rest.length ≤ fuel →
      ∀ r ∈ wrapGo m maxW fuel rest,
        m r ≤ maxW ∨ (r.length = 1 ∧ ¬ m r ≤ maxW ∧ ∀ c ∈ r, ¬ (c = ' ' ∨ c = '\t')) := by
  intro fuel
  induction fuel with
  | zero =>
    intro rest hlen r hr
    cases rest with
    | nil => simp [wrapGo] at hr
    | cons a t => simp at hlen
  | succ f ih =>
    intro rest hlen r hr
    cases rest with
    | nil => simp [wrapGo] at hr
    | cons a t =>
      by_cases hm : m (a :: t) ≤ maxW
      · simp only [wrapGo, if_pos hm, List.mem_singleton] at hr
        subst hr
        exact Or.inl hm
      · simp only [wrapGo, if_neg hm, List.mem_cons] at hr
        rcases hr with hr | hr
        · subst hr
          exact wrapStep_row m maxW (a :: t) (by simp) hmono hempty
        · have hs := wrapStep_shrink m maxW (a :: t) (by simp)
          have hlen2 := List.length_cons a t
          exact ih (wrapStep m maxW (a :: t)).2 (by omega) r hr

/-- Claim C6 (amended): for a measurement function that is monotone under
extension (as a real text-width function is) and measures the empty string
within the width, every row produced by the wrapper either fits the maximum
width or is a single character that is not whitespace and alone exceeds the
width — the hard-break fallback case.  (As stated over arbitrary
measurement functions the claim fails, see `wrap_width_bound_cex`.) -/
theorem wrap_rows_fit_of_monotone (m : List Char → ℚ) (maxW : ℚ) (s : List Char)
    (hmono : ∀ l t : List Char, m l ≤ m (l ++ t)) (hempty : m [] ≤ maxW) :
    ∀ r ∈ wrap_text m maxW s,
      m r ≤ maxW ∨ (r.length = 1 ∧ ¬ m r ≤ maxW ∧ ∀ c ∈ r, ¬ (c = ' ' ∨ c = '\t')) := by
  intro r hr
  by_cases hs : s = []
  · subst hs
    simp [wrap_text] at hr
    subst hr
    exact Or.inl hempty
  · by_cases hm : m s ≤ maxW
    · simp only [wrap_text, if_neg hs, if_pos hm, List.mem_singleton] at hr
      subst hr
      exact Or.inl hm
    · simp only [wrap_text, if_neg hs, if_neg hm] at hr
      exact wrapGo_rows m maxW hmono hempty s.length s le_rfl r hr

/-- Claim C6 (amended), witness: the width bound applied with the
character-count measurer, width 4, input `"ab cdefg"`, at the first row
`"ab"` of the output. -/
theorem wrap_rows_fit_of_monotone_witness :
    lenMeasure ['a', 'b'] ≤ 4 ∨
      ((['a', 'b'] : List Char).length = 1 ∧ ¬ lenMeasure ['a', 'b'] ≤ 4 ∧
        ∀ c ∈ (['a', 'b'] : List Char), ¬ (c = ' ' ∨ c = '\t')) :=
  wrap_rows_fit_of_monotone lenMeasure 4 "ab cdefg".toList
    (fun l t => by
      simp only [lenMeasure, List.length_append]
      exact_mod_cast Nat.le_add_right l.length t.length)
    (by with_unfolding_all decide)
    ['a', 'b'] (by with_unfolding_all decide)

-- -------------------- Parser lemmas --------------------

/-- `isPrefixOf` as an existence of a physical suffix. -/
lemma isPrefixOf_iff_exists_append (p : List Char) :
    ∀ l : List Char, (p.isPrefixOf l = true ↔ ∃ t, l = p ++ t) := by
  induction p with
  | nil =>
    intro l
    simp [List.isPrefixOf]
  | cons a as ih =>
    intro l
    cases l with
    | nil => simp [List.isPrefixOf]
    | cons b bs =>
      simp only [List.isPrefixOf, Bool.and_eq_true, beq_iff_eq, ih bs]
      constructor
      · rintro ⟨rfl, t, rfl⟩
        exact ⟨t, rfl⟩
      · rintro ⟨t, ht⟩
        injection ht with h1 h2
        exact ⟨h1.symm, t, h2⟩

/-- `startsWith` as an existence of a physical suffix. -/
lemma startsWith_true_iff (p : String) (l : List Char) :
    startsWith p l = true ↔ ∃ t, l = p.toList ++ t :=
  isPrefixOf_iff_exists_append p.toList l

/-- Two incomparable words cannot both be written at the front of the same
line. -/
lemma append_eq_append_disjoint :
    ∀ (p q u t : List Char), q ++ u = p ++ t →
      q.isPrefixOf p = false → p.isPrefixOf q = false → False := by
  intro p
  induction p with
  | nil =>
    intro q u t _ _ hp
    simp [List.isPrefixOf] at hp
  | cons a as ih =>
    intro q u t h hq hp
    cases q with
    | nil => simp [List.isPrefixOf] at hq
    | cons b bs =>
      injection h with h1 h2
      subst h1
      simp only [List.isPrefixOf, beq_self_eq_true, Bool.true_and] at hq hp
      exact ih bs u t h2 hq hp

/-- A line starting with word `p` cannot also start with an incomparable
word `q`. -/
lemma startsWith_append_false (p q : String) (t : List Char)
    (hq : q.toList.isPrefixOf p.toList = false)
    (hp : p.toList.isPrefixOf q.toList = false) :
    startsWith q (p.toList ++ t) = false := by
  by_contra h
  rw [Bool.not_eq_false] at h
  obtain ⟨u, hu⟩ := (startsWith_true_iff q _).mp h
  exact append_eq_append_disjoint p.toList q.toList u t hu.symm hq hp

/-- A line whose first character is not `@` cannot match `HUNK_RE`. -/
lemma matchHunk_ne_at (c : Char) (t : List Char) (hc : c ≠ '@') :
    matchHunk (c :: t) = none := by
  simp [matchHunk, expectChar, hc]

/-- A line starting with a word whose first character is not `@` cannot
match `HUNK_RE`. -/
lemma matchHunk_none_of_startsWith {p : String} {l : List Char} (c0 : Char)
    (t0 : List Char) (hp : p.toList = c0 :: t0) (hc : c0 ≠ '@')
    (h : startsWith p l = true) : matchHunk l = none := by
  obtain ⟨t, rfl⟩ := (startsWith_true_iff p l).mp h
  rw [hp]
  exact matchHunk_ne_at c0 _ hc

/-- Projection facts for the branch helpers. -/
lemma pushLine_saw (st : ParseState) (dl : DiffLine) : (pushLine st dl).saw = st.saw := rfl

/-- `stepBody` never changes `saw_any_hunk`. -/
lemma stepBody_saw (ts : Int) (st : ParseState) (line : List Char) :
    (stepBody ts st line).saw = st.saw := by
  unfold stepBody
  split
  · rfl
  · split
    · rfl
    · rfl

/-- One parser step ORs into `saw_any_hunk` exactly whether the processed
line matches the hunk-header grammar. -/
lemma parseStep_saw (ts : Int) (st : ParseState) (raw : List Char) :
    (parseStep ts st raw).saw = (st.saw || (matchHunk (parsedLine raw)).isSome) := by
  set line := parsedLine raw with hl
  by_cases h1 : (startsWith "index " line || startsWith "new file mode" line ||
      startsWith "deleted file mode" line || startsWith "Binary files " line) = true
  · have hnone : matchHunk line = none := by
      simp only [Bool.or_eq_true] at h1
      rcases h1 with ((h | h) | h) | h
      · exact matchHunk_none_of_startsWith 'i' _ rfl (by decide) h
      · exact matchHunk_none_of_startsWith 'n' _ rfl (by decide) h
      · exact matchHunk_none_of_startsWith 'd' _ rfl (by decide) h
      · exact matchHunk_none_of_startsWith 'B' _ rfl (by decide) h
    simp [parseStep, ← hl, h1, hnone]
  · by_cases h2 : startsWith "\\ No newline at end of file" line = true
    · have hnone := matchHunk_none_of_startsWith '\\' _ rfl (by decide) h2
      simp [parseStep, ← hl, h1, h2, hnone]
    · by_cases h3 : startsWith "diff --git " line = true
      · have hnone := matchHunk_none_of_startsWith 'd' _ rfl (by decide) h3
        simp [parseStep, ← hl, h1, h2, h3, hnone, stepDiffGit]
      · by_cases h4 : startsWith "rename from " line = true
        · have hnone := matchHunk_none_of_startsWith 'r' _ rfl (by decide) h4
          simp [parseStep, ← hl, h1, h2, h3, h4, hnone]
        · by_cases h5 : startsWith "rename to " line = true
          · have hnone := matchHunk_none_of_startsWith 'r' _ rfl (by decide) h5
            simp [parseStep, ← hl, h1, h2, h3, h4, h5, hnone]
          · by_cases h6 : startsWith "--- " line = true
            · have hnone := matchHunk_none_of_startsWith '-' _ rfl (by decide) h6
              simp [parseStep, ← hl, h1, h2, h3, h4, h5, h6, hnone, stepOldPath]
            · by_cases h7 : startsWith "+++ " line = true
              · have hnone := matchHunk_none_of_startsWith '+' _ rfl (by decide) h7
                simp [parseStep, ← hl, h1, h2, h3, h4, h5, h6, h7, hnone, stepNewPath]
              · cases hm : matchHunk line with
                | some m =>
                  simp [parseStep, ← hl, h1, h2, h3, h4, h5, h6, h7, hm, stepHunk]
                | none =>
                  cases hb : st.hunkOpen <;>
                    simp [parseStep, ← hl, h1, h2, h3, h4, h5, h6, h7, hm, hb, stepBody_saw]

/-- A line starting with word `p` cannot start with an incomparable `q`. -/
lemma startsWith_excl {p q : String} {l : List Char}
    (h : startsWith p l = true)
    (hq : q.toList.isPrefixOf p.toList = false)
    (hp : p.toList.isPrefixOf q.toList = false) :
    startsWith q l = false := by
  obtain ⟨t, rfl⟩ := (startsWith_true_iff p l).mp h
  exact startsWith_append_false p q t hq hp

/-- Every parser step is one of: a no-op or line-classification step that
keeps the file structure, a `diff --git ` step, or a hunk-opening step. -/
lemma parseStep_cases (ts : Int) (st : ParseState) (raw : List Char) :
    (matchHunk (parsedLine raw) = none ∧
      startsWith "diff --git " (parsedLine raw) = false ∧
      (parseStep ts st raw = st ∨
       (∃ v, parseStep ts st raw = { st with renameFrom := v }) ∨
       (∃ v, parseStep ts st raw = { st with renameTo := v }) ∨
       parseStep ts st raw = stepOldPath st (parsedLine raw) ∨
       parseStep ts st raw = stepNewPath st (parsedLine raw) ∨
       (∃ dl, dl.old_num = none ∧ dl.new_num = none ∧
          parseStep ts st raw = pushLine st dl))) ∨
    (matchHunk (parsedLine raw) = none ∧
      startsWith "diff --git " (parsedLine raw) = true ∧
      parseStep ts st raw = stepDiffGit st (parsedLine raw)) ∨
    (∃ hm, matchHunk (parsedLine raw) = some hm ∧
      startsWith "diff --git " (parsedLine raw) = false ∧
      parseStep ts st raw = stepHunk st hm) := by
  set line := parsedLine raw with hl
  by_cases h1 : (startsWith "index " line || startsWith "new file mode" line ||
      startsWith "deleted file mode" line || startsWith "Binary files " line) = true
  · have key : matchHunk line = none ∧ startsWith "diff --git " line = false := by
      simp only [Bool.or_eq_true] at h1
      rcases h1 with ((h | h) | h) | h
      · exact ⟨matchHunk_none_of_startsWith 'i' _ rfl (by decide) h,
          startsWith_excl h (by decide) (by decide)⟩
      · exact ⟨matchHunk_none_of_startsWith 'n' _ rfl (by decide) h,
          startsWith_excl h (by decide) (by decide)⟩
      · exact ⟨matchHunk_none_of_startsWith 'd' _ rfl (by decide) h,
          startsWith_excl h (by decide) (by decide)⟩
      · exact ⟨matchHunk_none_of_startsWith 'B' _ rfl (by decide) h,
          startsWith_excl h (by decide) (by decide)⟩
    refine Or.inl ⟨key.1, key.2, Or.inl ?_⟩
    simp [parseStep, ← hl, h1]
  · by_cases h2 : startsWith "\\ No newline at end of file" line = true
    · refine Or.inl ⟨matchHunk_none_of_startsWith '\\' _ rfl (by decide) h2,
        startsWith_excl h2 (by decide) (by decide), Or.inl ?_⟩
      simp [parseStep, ← hl, h1, h2]
    · by_cases h3 : startsWith "diff --git " line = true
      · refine Or.inr (Or.inl ⟨matchHunk_none_of_startsWith 'd' _ rfl (by decide) h3, h3, ?_⟩)
        simp [parseStep, ← hl, h1, h2, h3]
      · have h3f : startsWith "diff --git " line = false := by
          simpa using h3
        by_cases h4 : startsWith "rename from " line = true
        · refine Or.inl ⟨matchHunk_none_of_startsWith 'r' _ rfl (by decide) h4, h3f,
            Or.inr (Or.inl ⟨some (pyStrip (line.drop 12)), ?_⟩)⟩
          simp [parseStep, ← hl, h1, h2, h3, h4]
        · by_cases h5 : startsWith "rename to " line = true
          · refine Or.inl ⟨matchHunk_none_of_startsWith 'r' _ rfl (by decide) h5, h3f,
              Or.inr (Or.inr (Or.inl ⟨some (pyStrip (line.drop 10)), ?_⟩))⟩
            simp [parseStep, ← hl, h1, h2, h3, h4, h5]
          · by_cases h6 : startsWith "--- " line = true
            · refine Or.inl ⟨matchHunk_none_of_startsWith '-' _ rfl (by decide) h6, h3f,
                Or.inr (Or.inr (Or.inr (Or.inl ?_)))⟩
              simp [parseStep, ← hl, h1, h2, h3, h4, h5, h6]
            · by_cases h7 : startsWith "+++ " line = true
              · refine Or.inl ⟨matchHunk_none_of_startsWith '+' _ rfl (by decide) h7, h3f,
                  Or.inr (Or.inr (Or.inr (Or.inr (Or.inl ?_))))⟩
                simp [parseStep, ← hl, h1, h2, h3, h4, h5, h6, h7]
              · cases hm : matchHunk line with
                | some m =>
                  refine Or.inr (Or.inr ⟨m, rfl, h3f, ?_⟩)
                  simp [parseStep, ← hl, h1, h2, h3, h4, h5, h6, h7, hm]
                | none =>
                  refine Or.inl ⟨rfl, h3f, ?_⟩
                  cases hb : st.hunkOpen with
                  | false =>
                    refine Or.inl ?_
                    simp [parseStep, ← hl, h1, h2, h3, h4, h5, h6, h7, hm, hb]
                  | true =>
                    refine Or.inr (Or.inr (Or.inr (Or.inr (Or.inr ?_))))
                    have hbody : parseStep ts st raw = stepBody ts st line := by
                      simp [parseStep, ← hl, h1, h2, h3, h4, h5, h6, h7, hm, hb]
                    rw [hbody]
                    unfold stepBody
                    split
                    · exact ⟨_, rfl, rfl, rfl⟩
                    · split
                      · exact ⟨_, rfl, rfl, rfl⟩
                      · exact ⟨_, rfl, rfl, rfl⟩

/-- The number of files currently held (counting the open one). -/
def fileCount (st : ParseState) : Nat := (assembleFiles st).length

/-- `fileCount` in terms of the fields. -/
lemma fileCount_eq (st : ParseState) :
    fileCount st = st.files.length + (if st.current.isSome then 1 else 0) := by
  unfold fileCount assembleFiles
  cases st.current <;> simp

/-- The rename branches do not touch the file structure. -/
lemma fileCount_renameFrom (st : ParseState) (v : Option (List Char)) :
    fileCount { st with renameFrom := v } = fileCount st := by
  simp [fileCount_eq]

/-- The rename branches do not touch the file structure. -/
lemma fileCount_renameTo (st : ParseState) (v : Option (List Char)) :
    fileCount { st with renameTo := v } = fileCount st := by
  simp [fileCount_eq]

/-- After a `--- ` line a file is always open. -/
lemma fileCount_stepOldPath (st : ParseState) (line : List Char) :
    fileCount (stepOldPath st line) = st.files.length + 1 := by
  unfold stepOldPath
  cases parse_path_line line <;> simp [fileCount_eq]

/-- After a `+++ ` line a file is always open. -/
lemma fileCount_stepNewPath (st : ParseState) (line : List Char) :
    fileCount (stepNewPath st line) = st.files.length + 1 := by
  unfold stepNewPath
  simp [fileCount_eq]

/-- Appending a diff line to the open hunk keeps the file structure. -/
lemma fileCount_pushLine (st : ParseState) (dl : DiffLine) :
    fileCount (pushLine st dl) = fileCount st := by
  unfold pushLine
  cases hc : st.current <;> simp [fileCount_eq, hc]

/-- A `diff --git ` line adds exactly one file. -/
lemma fileCount_stepDiffGit (st : ParseState) (line : List Char) :
    fileCount (stepDiffGit st line) = fileCount st + 1 := by
  unfold stepDiffGit fileCount assembleFiles
  simp

/-- After a hunk header a file is always open. -/
lemma fileCount_stepHunk (st : ParseState) (hm : HunkMatch) :
    fileCount (stepHunk st hm) = st.files.length + 1 := by
  unfold stepHunk
  simp [fileCount_eq]

/-- The basic bound `fileCount st ≤ files.length + 1`. -/
lemma fileCount_le (st : ParseState) : fileCount st ≤ st.files.length + 1 := by
  rw [fileCount_eq]
  cases st.current <;> simp

/-- No step loses a file, and a `diff --git ` line gains one. -/
lemma parseStep_fileCount (ts : Int) (st : ParseState) (raw : List Char) :
    fileCount st +
        (if startsWith "diff --git " (parsedLine raw) = true then 1 else 0) ≤
      fileCount (parseStep ts st raw) := by
  rcases parseStep_cases ts st raw with ⟨_, hdg, hcase⟩ | ⟨_, hdg, heq⟩ | ⟨m, _, hdg, heq⟩
  · rw [hdg]
    simp only [if_neg (by simp : ¬ (false = true)), Nat.add_zero]
    rcases hcase with heq | ⟨v, heq⟩ | ⟨v, heq⟩ | heq | heq | ⟨dl, hdl1, hdl2, heq⟩
    · exact le_of_eq (by rw [heq])
    · exact le_of_eq (by rw [heq]; simp [fileCount_eq])
    · exact le_of_eq (by rw [heq]; simp [fileCount_eq])
    · rw [heq, fileCount_stepOldPath]
      exact fileCount_le st
    · rw [heq, fileCount_stepNewPath]
      exact fileCount_le st
    · exact le_of_eq (by rw [heq, fileCount_pushLine])
  · rw [hdg, heq, fileCount_stepDiffGit]
    simp
  · rw [hdg, heq, fileCount_stepHunk]
    simp only [if_neg (by simp : ¬ (false = true)), Nat.add_zero]
    exact fileCount_le st

/-- `saw_any_hunk` only turns true once a file is open, and stays so. -/
lemma parseStep_saw_fileCount (ts : Int) (st : ParseState) (raw : List Char)
    (h : st.saw = true → 1 ≤ fileCount st) :
    (parseStep ts st raw).saw = true → 1 ≤ fileCount (parseStep ts st raw) := by
  intro hnew
  rw [parseStep_saw] at hnew
  have hmono : fileCount st ≤ fileCount (parseStep ts st raw) := by
    have := parseStep_fileCount ts st raw
    omega
  rw [Bool.or_eq_true] at hnew
  rcases hnew with hold | hm
  · exact le_trans (h hold) hmono
  · rcases parseStep_cases ts st raw with ⟨hn, _, _⟩ | ⟨hn, _, _⟩ | ⟨m, _, _, heq⟩
    · rw [hn] at hm
      simp at hm
    · rw [hn] at hm
      simp at hm
    · rw [heq, fileCount_stepHunk]
      omega

/-- `saw_any_hunk` of the whole pass: true exactly when some line matches
the hunk-header grammar. -/
lemma foldl_saw (ts : Int) (lines : List (List Char)) (st : ParseState) :
    (lines.foldl (parseStep ts) st).saw =
      (st.saw || lines.any fun raw => (matchHunk (parsedLine raw)).isSome) := by
  induction lines generalizing st with
  | nil => simp
  | cons raw rest ih =>
    simp only [List.foldl_cons, List.any_cons]
    rw [ih, parseStep_saw, Bool.or_assoc]

/-- Over the whole pass, once a hunk was seen a file is held. -/
lemma foldl_saw_fileCount (ts : Int) (lines : List (List Char)) (st : ParseState)
    (h : st.saw = true → 1 ≤ fileCount st) :
    (lines.foldl (parseStep ts) st).saw = true →
      1 ≤ fileCount (lines.foldl (parseStep ts) st) := by
  induction lines generalizing st with
  | nil => exact h
  | cons raw rest ih =>
    simp only [List.foldl_cons]
    exact ih (parseStep ts st raw) (parseStep_saw_fileCount ts st raw h)

-- -------------------- Claim C2 --------------------

/-- Claim C2: the parser is total by construction, and it returns the empty
sequence exactly when no processed input line matches the hunk-header
grammar `HUNK_RE` — file or path lines alone never produce files. -/
theorem parse_empty_iff_no_hunk_header (text : List Char) (tabsize : Int) :
    parse_unified_diff text tabsize = [] ↔
      ∀ raw ∈ norm_lines text, matchHunk (parsedLine raw) = none := by
  have hsaw := foldl_saw tabsize (norm_lines text) {}
  constructor
  · intro h raw hraw
    by_contra hne
    have hisSome : (matchHunk (parsedLine raw)).isSome = true := by
      cases hmm : matchHunk (parsedLine raw) with
      | none => exact absurd hmm hne
      | some m => simp
    have hany : ((norm_lines text).any fun r => (matchHunk (parsedLine r)).isSome) = true :=
      List.any_eq_true.mpr ⟨raw, hraw, hisSome⟩
    have hst : ((norm_lines text).foldl (parseStep tabsize) {}).saw = true := by
      rw [hsaw, hany]
      simp
    have hcount : 1 ≤ fileCount ((norm_lines text).foldl (parseStep tabsize) {}) :=
      foldl_saw_fileCount tabsize (norm_lines text) {} (by intro hfalse; cases hfalse) hst
    simp only [parse_unified_diff] at h
    rw [hst] at h
    simp only [Bool.not_true, Bool.false_eq_true, if_false] at h
    simp only [List.map_eq_nil_iff] at h
    simp [fileCount, h] at hcount
  · intro hall
    have hst : ((norm_lines text).foldl (parseStep tabsize) {}).saw = false := by
      rw [hsaw]
      simp only [Bool.false_or, List.any_eq_false]
      intro raw hraw
      simp [hall raw hraw]
    simp only [parse_unified_diff]
    rw [hst]
    simp

-- -------------------- Claim C10 --------------------

/-- Across the whole pass no opened file is lost. -/
lemma foldl_countP_fileCount (ts : Int) (lines : List (List Char)) (st : ParseState) :
    fileCount st + lines.countP (fun raw => startsWith "diff --git " (parsedLine raw)) ≤
      fileCount (lines.foldl (parseStep ts) st) := by
  induction lines generalizing st with
  | nil => simp
  | cons raw rest ih =>
    simp only [List.foldl_cons, List.countP_cons]
    have h1 := parseStep_fileCount ts st raw
    have h2 := ih (parseStep ts st raw)
    by_cases hp : startsWith "diff --git " (parsedLine raw) = true
    · rw [if_pos hp] at h1 ⊢
      omega
    · rw [if_neg hp] at h1 ⊢
      omega

/-- The input of the concrete zero-hunk-file example: a binary-only file
followed by a file with one hunk. -/
def c10input : List Char :=
  "diff --git a/x b/x\nBinary files a/x and b/x differ\ndiff --git a/y b/y\n@@ -1 +1 @@\n".toList

/-- Claim C10: whenever some line matches the hunk-header grammar, every
file opened by a `diff --git ` line appears in the result (the result has
at least as many files as there were `diff --git ` lines); in particular a
binary-only entry with zero hunks is kept, as the concrete run shows: the
result contains the file `x` with an empty hunk sequence. -/
theorem files_without_hunks_kept :
    (∀ (text : List Char) (tabsize : Int),
        (∃ raw ∈ norm_lines text, (matchHunk (parsedLine raw)).isSome = true) →
        (norm_lines text).countP (fun raw => startsWith "diff --git " (parsedLine raw)) ≤
          (parse_unified_diff text tabsize).length) ∧
    parse_unified_diff c10input 4 =
      [{ old_path := "x".toList, new_path := "x".toList, hunks := [] },
       { old_path := "y".toList, new_path := "y".toList,
         hunks := [{ header := "@@ -1 +1 @@".toList, old_start := 1, old_count := 1,
                     new_start := 1, new_count := 1, lines := [], suffix := none }] }] := by
  constructor
  · intro text tabsize hex
    have hsaw : ((norm_lines text).foldl (parseStep tabsize) {}).saw = true := by
      rw [foldl_saw]
      rcases hex with ⟨raw, hraw, hs⟩
      have hany : ((norm_lines text).any fun r => (matchHunk (parsedLine r)).isSome) = true :=
        List.any_eq_true.mpr ⟨raw, hraw, hs⟩
      rw [hany]
      simp
    have hcnt := foldl_countP_fileCount tabsize (norm_lines text) {}
    simp only [parse_unified_diff]
    rw [hsaw]
    simp only [Bool.not_true, Bool.false_eq_true, if_false, List.length_map]
    simpa [fileCount, assembleFiles] using hcnt
  · decide

-- -------------------- Structural invariant of parsed hunks --------------------

/-- Every hunk held during parsing was built by `stepHunk` from a grammar
match (header rebuilt from the numeric fields, absent counts defaulted to
1) and its lines carry no numbers yet. -/
def hunkOk (h : Hunk) : Prop :=
  (∃ (line : List Char) (hm : HunkMatch),
      matchHunk line = some hm ∧
      h.header = headerCore hm.oldStart hm.oldCountOpt hm.newStart hm.newCountOpt ∧
      h.old_start = hm.oldStart ∧ h.old_count = hm.oldCountOpt.getD 1 ∧
      h.new_start = hm.newStart ∧ h.new_count = hm.newCountOpt.getD 1) ∧
  ∀ dl ∈ h.lines, dl.old_num = none ∧ dl.new_num = none

/-- All hunks of a file satisfy `hunkOk`. -/
def fileOk (f : DiffFile) : Prop := ∀ h ∈ f.hunks, hunkOk h

/-- All files of the parse state satisfy `fileOk`. -/
def stateOk (st : ParseState) : Prop :=
  (∀ f ∈ st.files, fileOk f) ∧ ∀ f, st.current = some f → fileOk f

/-- `modifyLast` preserves a pointwise property preserved by the update. -/
lemma modifyLast_ok {g : Hunk → Hunk} {P : Hunk → Prop}
    (hg : ∀ h, P h → P (g h)) :
    ∀ l : List Hunk, (∀ h ∈ l, P h) → ∀ h ∈ modifyLast g l, P h := by
  intro l
  induction l with
  | nil =>
    intro _ h hh
    simp [modifyLast] at hh
  | cons a t ih =>
    intro hl h hh
    cases t with
    | nil =>
      simp [modifyLast] at hh
      subst hh
      exact hg a (hl a (by simp))
    | cons b t2 =>
      rw [show modifyLast g (a :: b :: t2) = a :: modifyLast g (b :: t2) from rfl] at hh
      rcases List.mem_cons.mp hh with rfl | hh
      · exact hl h (by simp)
      · exact ih (fun x hx => hl x (List.mem_cons_of_mem a hx)) h hh

/-- The open file (or a fresh empty one) is `fileOk`. -/
lemma fileOk_getD (st : ParseState) (hok : stateOk st) :
    fileOk (st.current.getD {}) := by
  cases hc : st.current with
  | none =>
    intro h hh
    simp at hh
  | some f =>
    simpa using hok.2 f hc

/-- `fileOk` only looks at the hunks. -/
lemma fileOk_of_hunks_eq {f g : DiffFile} (h : g.hunks = f.hunks) (hf : fileOk f) :
    fileOk g := by
  intro x hx
  rw [h] at hx
  exact hf x hx

/-- A `--- ` step preserves the invariant. -/
lemma stepOldPath_ok (st : ParseState) (line : List Char) (h : stateOk st) :
    stateOk (stepOldPath st line) := by
  have hcur := fileOk_getD st h
  constructor
  · intro f hf
    exact h.1 f (by simpa [stepOldPath] using hf)
  · intro f hf
    simp only [stepOldPath, Option.some.injEq] at hf
    subst hf
    apply fileOk_of_hunks_eq _ hcur
    cases parse_path_line line <;> rfl

/-- A `+++ ` step preserves the invariant. -/
lemma stepNewPath_ok (st : ParseState) (line : List Char) (h : stateOk st) :
    stateOk (stepNewPath st line) := by
  have hcur := fileOk_getD st h
  constructor
  · intro f hf
    exact h.1 f (by simpa [stepNewPath] using hf)
  · intro f hf
    simp only [stepNewPath, Option.some.injEq] at hf
    subst hf
    apply fileOk_of_hunks_eq _ hcur
    cases parse_path_line line <;> cases st.renameFrom <;> cases st.renameTo <;>
      dsimp only <;> split_ifs <;> rfl

/-- A `diff --git ` step preserves the invariant. -/
lemma stepDiffGit_ok (st : ParseState) (line : List Char) (h : stateOk st) :
    stateOk (stepDiffGit st line) := by
  constructor
  · intro f hf
    simp only [stepDiffGit] at hf
    unfold assembleFiles at hf
    cases hc : st.current with
    | none =>
      rw [hc] at hf
      exact h.1 f hf
    | some g =>
      rw [hc] at hf
      rcases List.mem_append.mp hf with hf | hf
      · exact h.1 f hf
      · simp at hf
        subst hf
        exact h.2 f hc
  · intro f hf
    simp only [stepDiffGit, Option.some.injEq] at hf
    subst hf
    intro x hx
    simp at hx

/-- A hunk-header step preserves the invariant. -/
lemma stepHunk_ok (st : ParseState) (hm : HunkMatch) (line : List Char)
    (hline : matchHunk line = some hm) (h : stateOk st) :
    stateOk (stepHunk st hm) := by
  have hcur := fileOk_getD st h
  constructor
  · intro f hf
    exact h.1 f (by simpa [stepHunk] using hf)
  · intro f hf
    simp only [stepHunk, Option.some.injEq] at hf
    subst hf
    intro x hx
    rcases List.mem_append.mp hx with hx | hx
    · exact hcur x hx
    · simp at hx
      subst hx
      refine ⟨⟨line, hm, hline, rfl, rfl, rfl, rfl, rfl⟩, ?_⟩
      intro dl hdl
      simp at hdl

/-- A classification step preserves the invariant. -/
lemma pushLine_ok (st : ParseState) (dl : DiffLine)
    (h1 : dl.old_num = none) (h2 : dl.new_num = none) (h : stateOk st) :
    stateOk (pushLine st dl) := by
  constructor
  · intro f hf
    exact h.1 f (by simpa [pushLine] using hf)
  · intro f hf
    simp only [pushLine] at hf
    cases hc : st.current with
    | none =>
      rw [hc] at hf
      simp at hf
    | some g =>
      rw [hc] at hf
      simp only [Option.map_some', Option.some.injEq] at hf
      subst hf
      intro x hx
      refine modifyLast_ok ?_ g.hunks (h.2 g hc) x hx
      intro hk hok
      refine ⟨hok.1, ?_⟩
      intro x2 hx2
      rcases List.mem_append.mp hx2 with hx2 | hx2
      · exact hok.2 x2 hx2
      · simp at hx2
        subst hx2
        exact ⟨h1, h2⟩

/-- Every parser step preserves the invariant. -/
lemma parseStep_ok (ts : Int) (st : ParseState) (raw : List Char) (h : stateOk st) :
    stateOk (parseStep ts st raw) := by
  rcases parseStep_cases ts st raw with ⟨_, _, hcase⟩ | ⟨_, _, heq⟩ | ⟨m, hm, _, heq⟩
  · rcases hcase with heq | ⟨v, heq⟩ | ⟨v, heq⟩ | heq | heq | ⟨dl, h1, h2, heq⟩ <;> rw [heq]
    · exact h
    · exact ⟨h.1, fun f hf => h.2 f hf⟩
    · exact ⟨h.1, fun f hf => h.2 f hf⟩
    · exact stepOldPath_ok st _ h
    · exact stepNewPath_ok st _ h
    · exact pushLine_ok st dl h1 h2 h
  · rw [heq]
    exact stepDiffGit_ok st _ h
  · rw [heq]
    exact stepHunk_ok st m _ hm h

/-- The whole pass preserves the invariant. -/
lemma foldl_ok (ts : Int) (lines : List (List Char)) (st : ParseState) (h : stateOk st) :
    stateOk (lines.foldl (parseStep ts) st) := by
  induction lines generalizing st with
  | nil => exact h
  | cons raw rest ih =>
    exact ih (parseStep ts st raw) (parseStep_ok ts st raw h)

/-- Every file of the final list (open file included) is `fileOk`. -/
lemma assembleFiles_ok (st : ParseState) (h : stateOk st) :
    ∀ f ∈ assembleFiles st, fileOk f := by
  intro f hf
  unfold assembleFiles at hf
  cases hc : st.current with
  | none =>
    rw [hc] at hf
    exact h.1 f hf
  | some g =>
    rw [hc] at hf
    rcases List.mem_append.mp hf with hf | hf
    · exact h.1 f hf
    · simp at hf
      subst hf
      exact h.2 f hc

/-- The placeholder substitution does not touch the hunks. -/
lemma fixEmptyPaths_hunks (f : DiffFile) : (fixEmptyPaths f).hunks = f.hunks := by
  unfold fixEmptyPaths
  split <;> rfl

/-- Every parsed file is the renumbering of a file all of whose hunks are
`hunkOk`. -/
lemma parse_mem (text : List Char) (ts : Int) (f : DiffFile)
    (hf : f ∈ parse_unified_diff text ts) :
    ∃ f0, fileOk f0 ∧ f = renumberFile (fixEmptyPaths f0) := by
  simp only [parse_unified_diff] at hf
  by_cases hs : ((norm_lines text).foldl (parseStep ts) {}).saw = true
  · rw [hs] at hf
    simp only [Bool.not_true, Bool.false_eq_true, if_false] at hf
    rw [List.mem_map] at hf
    obtain ⟨g, hg, rfl⟩ := hf
    rw [List.mem_map] at hg
    obtain ⟨f0, hf0, rfl⟩ := hg
    have hok := foldl_ok ts (norm_lines text) {}
      ⟨by intro x hx; simp at hx, by intro x hx; cases hx⟩
    exact ⟨f0, assembleFiles_ok _ hok f0 hf0, rfl⟩
  · rw [Bool.not_eq_true] at hs
    rw [hs] at hf
    simp at hf

-- -------------------- Claim C4 --------------------

/-- `header_core` always starts with `@@ -`. -/
lemma headerCore_ne_nil (o : Nat) (oc : Option Nat) (n : Nat) (nc : Option Nat) :
    headerCore o oc n nc ≠ [] := by
  have h : ∃ t, headerCore o oc n nc = '@' :: t := ⟨_, rfl⟩
  obtain ⟨t, ht⟩ := h
  rw [ht]
  simp

/-- Claim C4: every parsed hunk's header is nonempty and is rebuilt from
its four numeric fields exactly as `HUNK_RE` matched them: the counts are
echoed exactly when the comma group was present (otherwise the default 1 is
stored in the count field but not rendered), and the suffix text after the
closing `@@` does not occur in the rebuilt header (`headerCore` does not
take it). -/
theorem hunk_header_rebuilt (text : List Char) (tabsize : Int)
    (f : DiffFile) (hf : f ∈ parse_unified_diff text tabsize)
    (h : Hunk) (hh : h ∈ f.hunks) :
    h.header ≠ [] ∧
    ∃ (line : List Char) (hm : HunkMatch),
      matchHunk line = some hm ∧
      h.header = headerCore hm.oldStart hm.oldCountOpt hm.newStart hm.newCountOpt ∧
      h.old_start = hm.oldStart ∧ h.old_count = hm.oldCountOpt.getD 1 ∧
      h.new_start = hm.newStart ∧ h.new_count = hm.newCountOpt.getD 1 := by
  obtain ⟨f0, hok, rfl⟩ := parse_mem text tabsize f hf
  simp only [renumberFile] at hh
  rw [List.mem_map] at hh
  obtain ⟨h0, hh0, rfl⟩ := hh
  rw [fixEmptyPaths_hunks] at hh0
  obtain ⟨⟨line, hm, hline, hhead, ho, hoc, hn, hnc⟩, _⟩ := hok h0 hh0
  refine ⟨?_, line, hm, hline, hhead, ho, hoc, hn, hnc⟩
  show h0.header ≠ []
  rw [hhead]
  exact headerCore_ne_nil _ _ _ _

/-- The input of the C3/C4 witnesses. -/
def c34input : List Char := "@@ -5,2 +7 @@\n x\n-y\n+z\n".toList

/-- Its parsed file. -/
def c34file : DiffFile := (parse_unified_diff c34input 4).headD {}

/-- Its single hunk. -/
def c34hunk : Hunk := c34file.hunks.headD emptyHunk

/-- Claim C4, witness: the header property at the hunk parsed from
`"@@ -5,2 +7 @@"`. -/
theorem hunk_header_rebuilt_witness :
    c34hunk.header ≠ [] ∧
    ∃ (line : List Char) (hm : HunkMatch),
      matchHunk line = some hm ∧
      c34hunk.header = headerCore hm.oldStart hm.oldCountOpt hm.newStart hm.newCountOpt ∧
      c34hunk.old_start = hm.oldStart ∧ c34hunk.old_count = hm.oldCountOpt.getD 1 ∧
      c34hunk.new_start = hm.newStart ∧ c34hunk.new_count = hm.newCountOpt.getD 1 :=
  hunk_header_rebuilt c34input 4 c34file (by decide) c34hunk (by decide)

-- -------------------- Claim C3 --------------------

/-- The old numbers the post-pass writes form a block of consecutive
integers starting at the old start. -/
lemma numberLines_old_range (ls : List DiffLine) :
    ∀ o n, (∀ dl ∈ ls, dl.old_num = none ∧ dl.new_num = none) →
      ∃ k, (numberLines o n ls).filterMap (fun dl => dl.old_num) = List.range' o k := by
  induction ls with
  | nil =>
    intro o n _
    exact ⟨0, by simp [numberLines, List.range']⟩
  | cons dl rest ih =>
    intro o n hclean
    have hdl := hclean dl (by simp)
    have hrest : ∀ x ∈ rest, x.old_num = none ∧ x.new_num = none :=
      fun x hx => hclean x (List.mem_cons_of_mem dl hx)
    cases hk : dl.kind with
    | ctx =>
      obtain ⟨k, hrec⟩ := ih (o + 1) (n + 1) hrest
      refine ⟨k + 1, ?_⟩
      simp only [numberLines, hk, List.filterMap_cons]
      rw [hrec]
      rfl
    | del =>
      obtain ⟨k, hrec⟩ := ih (o + 1) n hrest
      refine ⟨k + 1, ?_⟩
      simp only [numberLines, hk, List.filterMap_cons]
      rw [hrec]
      rfl
    | add =>
      obtain ⟨k, hrec⟩ := ih o (n + 1) hrest
      refine ⟨k, ?_⟩
      simp only [numberLines, hk, List.filterMap_cons, hdl.1]
      exact hrec

/-- The new numbers the post-pass writes form a block of consecutive
integers starting at the new start. -/
lemma numberLines_new_range (ls : List DiffLine) :
    ∀ o n, (∀ dl ∈ ls, dl.old_num = none ∧ dl.new_num = none) →
      ∃ k, (numberLines o n ls).filterMap (fun dl => dl.new_num) = List.range' n k := by
  induction ls with
  | nil =>
    intro o n _
    exact ⟨0, by simp [numberLines, List.range']⟩
  | cons dl rest ih =>
    intro o n hclean
    have hdl := hclean dl (by simp)
    have hrest : ∀ x ∈ rest, x.old_num = none ∧ x.new_num = none :=
      fun x hx => hclean x (List.mem_cons_of_mem dl hx)
    cases hk : dl.kind with
    | ctx =>
      obtain ⟨k, hrec⟩ := ih (o + 1) (n + 1) hrest
      refine ⟨k + 1, ?_⟩
      simp only [numberLines, hk, List.filterMap_cons]
      rw [hrec]
      rfl
    | del =>
      obtain ⟨k, hrec⟩ := ih (o + 1) n hrest
      refine ⟨k, ?_⟩
      simp only [numberLines, hk, List.filterMap_cons, hdl.2]
      exact hrec
    | add =>
      obtain ⟨k, hrec⟩ := ih o (n + 1) hrest
      refine ⟨k + 1, ?_⟩
      simp only [numberLines, hk, List.filterMap_cons]
      rw [hrec]
      rfl

/-- `range'` with step 1 is strictly increasing. -/
lemma chain_lt_range' : ∀ (n s : Nat), List.Chain' (· < ·) (List.range' s n) := by
  intro n
  induction n with
  | zero =>
    intro s
    simp [List.range']
  | succ k ih =>
    intro s
    rw [show List.range' s (k + 1) = s :: List.range' (s + 1) k from rfl]
    rw [List.chain'_cons']
    refine ⟨?_, ih (s + 1)⟩
    intro y hy
    cases k with
    | zero => simp [List.range'] at hy
    | succ k2 =>
      rw [show List.range' (s + 1) (k2 + 1) = (s + 1) :: List.range' (s + 2) k2 from rfl] at hy
      simp at hy
      omega

/-- The head of `range' s k`, when present, is `s`. -/
lemma range'_head_eq (s k x : Nat) (h : (List.range' s k).head? = some x) : x = s := by
  cases k with
  | zero => simp [List.range'] at h
  | succ k2 =>
    rw [show List.range' s (k2 + 1) = s :: List.range' (s + 1) k2 from rfl] at h
    simp at h
    omega

/-- Claim C3: within every parsed hunk, the old numbers carried by the line
sequence and the new numbers are each strictly increasing from one carrying
line to the next (hence non-decreasing across the sequence), the first old
number equals the hunk's `old_start` and the first new number equals its
`new_start` — for every input text and tab width, regardless of the
header's declared counts. -/
theorem hunk_numbers_monotone (text : List Char) (tabsize : Int)
    (f : DiffFile) (hf : f ∈ parse_unified_diff text tabsize)
    (h : Hunk) (hh : h ∈ f.hunks) :
    List.Chain' (· < ·) (h.lines.filterMap (fun dl => dl.old_num)) ∧
    List.Chain' (· < ·) (h.lines.filterMap (fun dl => dl.new_num)) ∧
    (∀ x, (h.lines.filterMap (fun dl => dl.old_num)).head? = some x → x = h.old_start) ∧
    (∀ x, (h.lines.filterMap (fun dl => dl.new_num)).head? = some x → x = h.new_start) := by
  obtain ⟨f0, hok, rfl⟩ := parse_mem text tabsize f hf
  simp only [renumberFile] at hh
  rw [List.mem_map] at hh
  obtain ⟨h0, hh0, rfl⟩ := hh
  rw [fixEmptyPaths_hunks] at hh0
  obtain ⟨_, hclean⟩ := hok h0 hh0
  obtain ⟨k1, hk1⟩ := numberLines_old_range h0.lines h0.old_start h0.new_start hclean
  obtain ⟨k2, hk2⟩ := numberLines_new_range h0.lines h0.old_start h0.new_start hclean
  refine ⟨?_, ?_, ?_, ?_⟩
  · show List.Chain' (· < ·)
      ((numberLines h0.old_start h0.new_start h0.lines).filterMap (fun dl => dl.old_num))
    rw [hk1]
    exact chain_lt_range' k1 h0.old_start
  · show List.Chain' (· < ·)
      ((numberLines h0.old_start h0.new_start h0.lines).filterMap (fun dl => dl.new_num))
    rw [hk2]
    exact chain_lt_range' k2 h0.new_start
  · intro x hx
    rw [show ({ h0 with lines := numberLines h0.old_start h0.new_start h0.lines } : Hunk).lines
        = numberLines h0.old_start h0.new_start h0.lines from rfl, hk1] at hx
    exact range'_head_eq h0.old_start k1 x hx
  · intro x hx
    rw [show ({ h0 with lines := numberLines h0.old_start h0.new_start h0.lines } : Hunk).lines
        = numberLines h0.old_start h0.new_start h0.lines from rfl, hk2] at hx
    exact range'_head_eq h0.new_start k2 x hx

/-- Claim C3, witness: the monotonicity facts at the hunk parsed from
`"@@ -5,2 +7 @@\n x\n-y\n+z\n"`. -/
theorem hunk_numbers_monotone_witness :
    List.Chain' (· < ·) (c34hunk.lines.filterMap (fun dl => dl.old_num)) ∧
    List.Chain' (· < ·) (c34hunk.lines.filterMap (fun dl => dl.new_num)) ∧
    (∀ x, (c34hunk.lines.filterMap (fun dl => dl.old_num)).head? = some x →
      x = c34hunk.old_start) ∧
    (∀ x, (c34hunk.lines.filterMap (fun dl => dl.new_num)).head? = some x →
      x = c34hunk.new_start) :=
  hunk_numbers_monotone c34input 4 c34file (by decide) c34hunk (by decide)
